import Mathlib

/-!
Verification of the capnp-json crate's annotation resolution, discriminator
resolution, and typescript declaration generation, as a shallow embedding of
the Rust sources in src/capnp-json/src/lib.rs and
src/capnp-json/src/typescript.rs.

Schema reflection data (structs, fields, enums, annotation lists) is
modelled as inductive values; the annotation payloads are typed by
constructor, mirroring the generated json_capnp annotation ids (name,
flatten, base64, hex, discriminator).  Reflection-layer read failures are
outside the model, so the embedded functions keep the Result signature of
the source (as Except) but only raise the errors the source itself
constructs.
-/

namespace CapnpJson

/-- Errors constructed by the crate itself.  The source uses
capnp::Error::unimplemented for the non-ascii display-name rejection. -/
inductive CapnpError where
  | unimplemented (msg : String)
deriving DecidableEq, Repr

/-- DataFormat from lib.rs: the two binary-data encodings. -/
inductive DataFormat where
  | hex
  | base64
deriving DecidableEq, Repr

/-- FlattenOptions from lib.rs.  The field is called "prefix" in the
source. -/
structure FlattenOptions where
  pfx : Option String := none
deriving DecidableEq, Repr

/-- One annotation attached to a schema node.  Each constructor stands for
one of the json_capnp annotation ids matched in read_annots and
read_discriminator; payloads are typed by constructor.  For the
discriminator annotation, dname/valueName being some mirrors the
has_name()/has_value_name() pointer checks of the source.  Unknown ids are
the other constructor. -/
inductive Annot where
  | name (value : String)
  | flatten (pfx : Option String)
  | base64
  | hex
  | discriminator (dname : Option String) (valueName : Option String)
  | other (id : Nat)
deriving DecidableEq, Repr

/-- JsonAnnots from lib.rs. -/
structure JsonAnnots where
  name : Option String := none
  data_format : Option DataFormat := none
  flatten : Option FlattenOptions := none
deriving DecidableEq, Repr

theorem ok_bind {α β : Type} (a : α) (f : α → Except CapnpError β) :
    (Except.ok a >>= f) = f a := rfl

theorem err_bind {α β : Type} (e : CapnpError) (f : α → Except CapnpError β) :
    ((Except.error e : Except CapnpError α) >>= f) = Except.error e := rfl

theorem pure_eq_ok {α : Type} (a : α) :
    (pure a : Except CapnpError α) = Except.ok a := rfl

def Annot.isName : Annot → Bool
  | .name _ => true
  | _ => false

def Annot.isDiscriminator : Annot → Bool
  | .discriminator _ _ => true
  | _ => false

/-- One iteration of the for-loop in read_annots (lib.rs lines 40 to 57).
Note the flatten arm of the source builds a FlattenOptions value in a local
variable and never stores it in out; the embedding mirrors that by binding
and discarding it. -/
def readAnnotsStep (out : JsonAnnots) (annot : Annot) : JsonAnnots :=
  match annot with
  | .name value => { out with name := some value }
  | .flatten p =>
      let _value : FlattenOptions := { pfx := p }
      out
  | .base64 => { out with data_format := some DataFormat.base64 }
  | .hex => { out with data_format := some DataFormat.hex }
  | _ => out

/-- read_annots from lib.rs lines 38 to 59. -/
def read_annots (list : List Annot) : Except CapnpError JsonAnnots :=
  .ok (list.foldl readAnnotsStep {})

/-- DiscriminatorOptions from lib.rs lines 61 to 65; the Rust Default gives
the empty string and None. -/
structure DiscriminatorOptions where
  name : String := ""
  value_name : Option String := none
deriving DecidableEq, Repr

/-- One enum value: declared name plus its annotation list. -/
structure Enumerant where
  name : String
  annots : List Annot
deriving DecidableEq, Repr

/-- An enum schema: fully qualified display name plus enumerants in
declaration order. -/
structure EnumSchema where
  displayName : String
  enumerants : List Enumerant
deriving DecidableEq, Repr

mutual
/-- A capnp type, as discriminated by introspect::TypeVariant. -/
inductive Ty where
  | void | bool
  | int8 | int16 | int32 | int64
  | uint8 | uint16 | uint32 | uint64
  | float32 | float64
  | text | data
  | anyPointer | capability
  | enum (s : EnumSchema)
  | struct (s : StructSchema)
  | list (elem : Ty)

/-- A struct schema: display name, declared (short) name, annotation list,
non-union fields and union fields, each in declaration order. -/
inductive StructSchema where
  | mk (displayName : String) (name : String) (annots : List Annot)
      (nonUnionFields : List Field) (unionFields : List Field)

/-- A struct field: declared name, code order ordinal, annotation list and
type. -/
inductive Field where
  | mk (name : String) (codeOrder : Nat) (annots : List Annot) (ty : Ty)
end

def StructSchema.displayName : StructSchema → String
  | .mk d _ _ _ _ => d

def StructSchema.name : StructSchema → String
  | .mk _ n _ _ _ => n

def StructSchema.annots : StructSchema → List Annot
  | .mk _ _ a _ _ => a

def StructSchema.nonUnionFields : StructSchema → List Field
  | .mk _ _ _ f _ => f

def StructSchema.unionFields : StructSchema → List Field
  | .mk _ _ _ _ u => u

/-- has_union_fields: the struct's discriminant count is nonzero. -/
def StructSchema.has_union_fields (s : StructSchema) : Bool :=
  !s.unionFields.isEmpty

def Field.name : Field → String
  | .mk n _ _ _ => n

def Field.codeOrder : Field → Nat
  | .mk _ c _ _ => c

def Field.annots : Field → List Annot
  | .mk _ _ a _ => a

def Field.ty : Field → Ty
  | .mk _ _ _ t => t

/-- read_discriminator from lib.rs lines 67 to 91.  AnnotationList::find
returns the first annotation with the given id. -/
def read_discriminator (schema : StructSchema) :
    Except CapnpError DiscriminatorOptions :=
  match schema.annots.find? Annot.isDiscriminator with
  | none => .ok {}
  | some (.discriminator dname valueName) =>
      let nameVal : String :=
        match dname with
        | some n => n
        | none =>
            match schema.annots.find? Annot.isName with
            | some (.name unionName) => unionName
            | _ => schema.name
      .ok { name := nameVal, value_name := valueName }
  | some _ => .ok {}

/-- field_name from lib.rs lines 93 to 99. -/
def field_name (field : Field) (annots : JsonAnnots) :
    Except CapnpError String :=
  match annots.name with
  | some n => .ok n
  | none => .ok field.name

/-- enumerant_value from lib.rs lines 101 to 109. -/
def enumerant_value (enumerant : Enumerant) : Except CapnpError String := do
  let annots ← read_annots enumerant.annots
  match annots.name with
  | some n => .ok n
  | none => .ok enumerant.name

/-! ### Behaviour of the read_annots fold -/

theorem readAnnots_foldl_flatten (l : List Annot) :
    ∀ s : JsonAnnots, (l.foldl readAnnotsStep s).flatten = s.flatten := by
  induction l with
  | nil => intro s; rfl
  | cons a rest ih =>
      intro s
      cases a <;> simp [readAnnotsStep, ih]

theorem readAnnots_foldl_name_none (l : List Annot)
    (h : ∀ v, Annot.name v ∉ l) :
    ∀ s : JsonAnnots, (l.foldl readAnnotsStep s).name = s.name := by
  induction l with
  | nil => intro s; rfl
  | cons a rest ih =>
      intro s
      have hrest : ∀ v, Annot.name v ∉ rest := by
        intro v hv
        exact h v (List.mem_cons_of_mem _ hv)
      cases a with
      | name v => exact absurd (List.mem_cons_self _ _) (h v)
      | _ => simp [readAnnotsStep, ih hrest]

theorem readAnnots_foldl_name_mem (l : List Annot) :
    ∀ (s : JsonAnnots) (v : String),
      (l.foldl readAnnotsStep s).name = some v →
      Annot.name v ∈ l ∨ s.name = some v := by
  induction l with
  | nil => intro s v h; exact Or.inr h
  | cons a rest ih =>
      intro s v h
      rcases ih _ v h with hm | hs
      · exact Or.inl (List.mem_cons_of_mem _ hm)
      · cases a with
        | name w =>
            simp [readAnnotsStep] at hs
            subst hs
            exact Or.inl (List.mem_cons_self _ _)
        | _ =>
            exact Or.inr (by simpa [readAnnotsStep] using hs)

theorem readAnnots_foldl_name_stays_some (l : List Annot) :
    ∀ s : JsonAnnots, s.name.isSome →
      (l.foldl readAnnotsStep s).name.isSome := by
  induction l with
  | nil => intro s hs; exact hs
  | cons a rest ih =>
      intro s hs
      cases a <;> simp [readAnnotsStep] at * <;> exact ih _ (by simp [*])

theorem readAnnots_foldl_name_isSome (l : List Annot) (v : String)
    (h : Annot.name v ∈ l) :
    ∀ s : JsonAnnots, (l.foldl readAnnotsStep s).name.isSome := by
  induction l with
  | nil => cases h
  | cons a rest ih =>
      intro s
      rcases List.mem_cons.mp h with heq | hmem
      · subst heq
        exact readAnnots_foldl_name_stays_some rest _ (by simp [readAnnotsStep])
      · exact ih hmem _

theorem readAnnots_foldl_format_none (l : List Annot)
    (h1 : Annot.hex ∉ l) (h2 : Annot.base64 ∉ l) :
    ∀ s : JsonAnnots, (l.foldl readAnnotsStep s).data_format = s.data_format := by
  induction l with
  | nil => intro s; rfl
  | cons a rest ih =>
      intro s
      have hr1 : Annot.hex ∉ rest := fun hv => h1 (List.mem_cons_of_mem _ hv)
      have hr2 : Annot.base64 ∉ rest := fun hv => h2 (List.mem_cons_of_mem _ hv)
      cases a with
      | hex => exact absurd (List.mem_cons_self _ _) h1
      | base64 => exact absurd (List.mem_cons_self _ _) h2
      | _ => simp [readAnnotsStep, ih hr1 hr2]

/-! ### Claim C1: the flatten annotation -/

/-- C1: a flatten annotation in an annotation list is silently ignored by
read_annots: resolving the list gives the same successful result as if the
flatten annotation were not there, with the resolved flatten options always
None and no error raised.  This refutes the claim that serialize,
deserializeInto and Context.add fail with an explicit unsupported-feature
error on flatten: all three resolve annotations through read_annots, which
parses the flatten options into a dead local and never records or rejects
them. -/
theorem read_annots_ignores_flatten (l : List Annot) (p : Option String) :
    read_annots (Annot.flatten p :: l) = read_annots l ∧
    ∃ out, read_annots (Annot.flatten p :: l) = Except.ok out ∧
      out.flatten = none := by
  refine ⟨rfl, ⟨_, rfl, ?_⟩⟩
  simpa using readAnnots_foldl_flatten (Annot.flatten p :: l) {}

/-! ### Claim C2: which of several duplicate annotations wins -/

/-- C2 counterexample: with two name annotations the last one wins, not the
first as the claim states; likewise with both hex and base64 present the
last one determines the data format, not the first encountered. -/
theorem read_annots_first_match_refuted :
    read_annots [Annot.name "a", Annot.name "b"] =
      Except.ok { name := some "b" } ∧
    (some "b" : Option String) ≠ some "a" ∧
    read_annots [Annot.hex, Annot.base64] =
      Except.ok { data_format := some DataFormat.base64 } ∧
    (some DataFormat.base64 : Option DataFormat) ≠ some DataFormat.hex := by
  exact ⟨rfl, by decide, rfl, by decide⟩

/-- C2 amended: read_annots resolves the name to the last matching
occurrence, and the data format to the last hex or base64 annotation
encountered. -/
theorem read_annots_last_match_wins :
    (∀ (l1 l2 : List Annot) (v : String) (out : JsonAnnots),
        (∀ w, Annot.name w ∉ l2) →
        read_annots (l1 ++ Annot.name v :: l2) = Except.ok out →
        out.name = some v) ∧
    (∀ (l1 l2 : List Annot) (out : JsonAnnots),
        Annot.hex ∉ l2 → Annot.base64 ∉ l2 →
        read_annots (l1 ++ Annot.hex :: l2) = Except.ok out →
        out.data_format = some DataFormat.hex) ∧
    (∀ (l1 l2 : List Annot) (out : JsonAnnots),
        Annot.hex ∉ l2 → Annot.base64 ∉ l2 →
        read_annots (l1 ++ Annot.base64 :: l2) = Except.ok out →
        out.data_format = some DataFormat.base64) := by
  refine ⟨?_, ?_, ?_⟩
  · intro l1 l2 v out hl2 hout
    simp only [read_annots, Except.ok.injEq] at hout
    subst hout
    rw [List.foldl_append, List.foldl_cons,
      readAnnots_foldl_name_none l2 hl2]
    rfl
  · intro l1 l2 out h1 h2 hout
    simp only [read_annots, Except.ok.injEq] at hout
    subst hout
    rw [List.foldl_append, List.foldl_cons,
      readAnnots_foldl_format_none l2 h1 h2]
    rfl
  · intro l1 l2 out h1 h2 hout
    simp only [read_annots, Except.ok.injEq] at hout
    subst hout
    rw [List.foldl_append, List.foldl_cons,
      readAnnots_foldl_format_none l2 h1 h2]
    rfl

theorem read_annots_last_match_wins_witness :
    (∀ w, Annot.name w ∉ ([Annot.hex] : List Annot)) ∧
    ({ name := some "b", data_format := some DataFormat.hex } :
      JsonAnnots).name = some "b" := by
  constructor
  · intro w hw; simp at hw
  · exact read_annots_last_match_wins.1 [Annot.name "a"] [Annot.hex] "b" _
      (fun w hw => by simp at hw) rfl

/-! ### Claim C3: the discriminator name fallback chain -/

/-- Formalisation of claim C3's three-step fallback chain, stated from the
spec's words: the discriminator annotation's explicit name if set,
otherwise the struct-level name annot value if present, otherwise the
struct's own declared name. -/
def discriminatorNameChain (s : StructSchema) : String :=
  match s.annots.find? Annot.isDiscriminator with
  | some (.discriminator (some n) _) => n
  | _ =>
      match s.annots.find? Annot.isName with
      | some (.name v) => v
      | _ => s.name

/-- A struct with a union and a struct-level name annot, but no
discriminator annot. -/
def chainExStruct : StructSchema :=
  StructSchema.mk "test.capnp:Ex" "Ex" [Annot.name "theName"] []
    [Field.mk "v" 0 [] Ty.bool]

/-- C3 counterexample: on a struct with a union but no discriminator
annot, read_discriminator resolves the name to the empty string, while
the claim's fallback chain would resolve it to the struct-level name
annot value. -/
theorem read_discriminator_chain_refuted :
    chainExStruct.has_union_fields = true ∧
    read_discriminator chainExStruct =
      Except.ok { name := "", value_name := none } ∧
    discriminatorNameChain chainExStruct = "theName" ∧
    ("" : String) ≠ "theName" := by
  exact ⟨rfl, rfl, rfl, by decide⟩

/-- C3 amended: for a struct with a union whose annotation list does
contain a discriminator annot, the resolved discriminator name follows
exactly the three-step fallback chain: explicit discriminator name, else
struct-level name annot value, else the struct's declared name. -/
theorem read_discriminator_fallback_chain (s : StructSchema)
    (hu : s.has_union_fields = true)
    (hd : (s.annots.find? Annot.isDiscriminator).isSome = true) :
    ∃ o, read_discriminator s = Except.ok o ∧
      o.name = discriminatorNameChain s := by
  cases h : s.annots.find? Annot.isDiscriminator with
  | none => rw [h] at hd; simp at hd
  | some a =>
      have ha := List.find?_some h
      cases a <;> simp [Annot.isDiscriminator] at ha
      rename_i dname valueName
      cases dname with
      | some n =>
          exact ⟨{ name := n, value_name := valueName },
            by simp [read_discriminator, h],
            by simp [discriminatorNameChain, h]⟩
      | none =>
          cases h2 : s.annots.find? Annot.isName with
          | none =>
              exact ⟨{ name := s.name, value_name := valueName },
                by simp [read_discriminator, h, h2],
                by simp [discriminatorNameChain, h, h2]⟩
          | some b =>
              have hb := List.find?_some h2
              cases b <;> simp [Annot.isName] at hb
              rename_i v
              exact ⟨{ name := v, value_name := valueName },
                by simp [read_discriminator, h, h2],
                by simp [discriminatorNameChain, h, h2]⟩

/-- A struct with a union, a discriminator annot with no explicit name,
and a struct-level name annot. -/
def chainWitStruct : StructSchema :=
  StructSchema.mk "test.capnp:W" "W"
    [Annot.discriminator none none, Annot.name "nm"] []
    [Field.mk "v" 0 [] Ty.bool]

theorem read_discriminator_fallback_chain_witness :
    chainWitStruct.has_union_fields = true ∧
    (chainWitStruct.annots.find? Annot.isDiscriminator).isSome = true ∧
    ∃ o, read_discriminator chainWitStruct = Except.ok o ∧
      o.name = discriminatorNameChain chainWitStruct :=
  ⟨rfl, rfl, read_discriminator_fallback_chain chainWitStruct rfl rfl⟩

/-! ### Claim C4: no discriminator annot means default options -/

/-- C4: when the annotation list has no discriminator annot,
read_discriminator returns the default options (empty name, no value
name) for every struct, regardless of any struct-level name annot or of
the declared name. -/
theorem read_discriminator_default_absent (s : StructSchema)
    (h : s.annots.find? Annot.isDiscriminator = none) :
    read_discriminator s = Except.ok { name := "", value_name := none } := by
  simp [read_discriminator, h]

/-- A struct carrying a name annot but no discriminator annot. -/
def noDiscStruct : StructSchema :=
  StructSchema.mk "test.capnp:N" "NDecl" [Annot.name "foo"] [] []

theorem read_discriminator_default_absent_witness :
    noDiscStruct.annots.find? Annot.isDiscriminator = none ∧
    read_discriminator noDiscStruct =
      Except.ok { name := "", value_name := none } :=
  ⟨rfl, read_discriminator_default_absent noDiscStruct rfl⟩

/-! ### Claim C10: name overrides -/

/-- C10: a field or enumerant carrying a name annot resolves exclusively
to the annot value; absent any name annot, the declared name is used.
The field conjuncts cover field_name on the output of read_annots, the
enumerant conjuncts cover enumerant_value. -/
theorem resolved_name_prefers_override :
    (∀ (f : Field) (a : JsonAnnots) (v : String),
        a.name = some v → field_name f a = Except.ok v) ∧
    (∀ (f : Field) (a : JsonAnnots),
        a.name = none → field_name f a = Except.ok f.name) ∧
    (∀ (f : Field) (v : String),
        Annot.name v ∈ f.annots →
        (∀ w, Annot.name w ∈ f.annots → w = v) →
        ∃ a, read_annots f.annots = Except.ok a ∧
          field_name f a = Except.ok v) ∧
    (∀ (en : Enumerant) (v : String),
        Annot.name v ∈ en.annots →
        (∀ w, Annot.name w ∈ en.annots → w = v) →
        enumerant_value en = Except.ok v) ∧
    (∀ en : Enumerant,
        (∀ w, Annot.name w ∉ en.annots) →
        enumerant_value en = Except.ok en.name) := by
  have resolve : ∀ (l : List Annot) (v : String),
      Annot.name v ∈ l → (∀ w, Annot.name w ∈ l → w = v) →
      (l.foldl readAnnotsStep {}).name = some v := by
    intro l v hmem huniq
    have hs := readAnnots_foldl_name_isSome l v hmem ({} : JsonAnnots)
    rcases Option.isSome_iff_exists.mp hs with ⟨w, hw⟩
    rcases readAnnots_foldl_name_mem l {} w hw with hm | hnone
    · rw [hw, huniq w hm]
    · simp at hnone
  refine ⟨?_, ?_, ?_, ?_, ?_⟩
  · intro f a v h
    simp [field_name, h]
  · intro f a h
    simp [field_name, h]
  · intro f v hmem huniq
    exact ⟨_, rfl, by simp [field_name, resolve f.annots v hmem huniq]⟩
  · intro en v hmem huniq
    simp [enumerant_value, read_annots, ok_bind,
      resolve en.annots v hmem huniq]
  · intro en h
    have hnone := readAnnots_foldl_name_none en.annots h ({} : JsonAnnots)
    simp only [] at hnone
    simp [enumerant_value, read_annots, ok_bind, hnone]

theorem resolved_name_prefers_override_witness :
    (({ name := some "x" } : JsonAnnots).name = some "x") ∧
    field_name (Field.mk "decl" 0 [] Ty.bool) { name := some "x" } =
      Except.ok "x" ∧
    (Annot.name "y" ∈ [Annot.name "y", Annot.hex]) ∧
    enumerant_value { name := "edecl", annots := [Annot.name "y", Annot.hex] } =
      Except.ok "y" := by
  refine ⟨rfl, ?_, by decide, ?_⟩
  · exact resolved_name_prefers_override.1 (Field.mk "decl" 0 [] Ty.bool) _ "x" rfl
  · exact resolved_name_prefers_override.2.2.2.1
      { name := "edecl", annots := [Annot.name "y", Annot.hex] } "y"
      (by decide) (by intro w hw; simp at hw; exact hw)

/-! ### Identifier derivation (typescript.rs) -/

/-- One character being ascii, as in the str::is_ascii check of the
source. -/
def isAscii (c : Char) : Bool := c.toNat ≤ 127

/-- The character loop of capnp_display_name_to_ident (typescript.rs lines
293 to 306): the Bool argument is the uppercase_next flag, and the string
is built character by character exactly as the loop pushes them. -/
def camel : List Char → Bool → List Char
  | [], _ => []
  | c :: rest, up =>
      if c.isAlphanum then
        (if up then c.toUpper else c) :: camel rest false
      else
        camel rest true

/-- capnp_display_name_to_ident from typescript.rs lines 286 to 309. -/
def capnp_display_name_to_ident (nm : String) : Except CapnpError String :=
  if !(nm.data.all isAscii) then
    .error (.unimplemented "non-ascii names are unsupported")
  else
    .ok (String.mk (camel nm.data true))

mutual
/-- Spec-side description of identifier derivation: upper-camel-case each
maximal alphanumeric run and drop every separator.  camelRuns is the state
at a run boundary (the next alphanumeric character starts a run and is
uppercased), camelInRun the state inside a run (characters are copied). -/
def camelRuns : List Char → List Char
  | [] => []
  | c :: rest =>
      if c.isAlphanum then c.toUpper :: camelInRun rest else camelRuns rest

/-- See camelRuns. -/
def camelInRun : List Char → List Char
  | [] => []
  | c :: rest =>
      if c.isAlphanum then c :: camelInRun rest else camelRuns rest
end

theorem camel_eq_runs : ∀ (l : List Char) (up : Bool),
    camel l up = if up then camelRuns l else camelInRun l := by
  intro l
  induction l with
  | nil => intro up; cases up <;> simp [camel, camelRuns, camelInRun]
  | cons c rest ih =>
      intro up
      cases up <;> by_cases hc : c.isAlphanum <;>
        simp [camel, camelRuns, camelInRun, hc, ih]

/-! ### Claim C8: identifier derivation -/

/-- C8: on an all-ascii display name the derived identifier is the result
of upper-camel-casing each maximal alphanumeric run and dropping the
separators; a display name with any non-ascii character is a hard
error. -/
theorem display_name_to_ident_spec (nm : String) :
    (nm.data.all isAscii = true →
      capnp_display_name_to_ident nm =
        Except.ok (String.mk (camelRuns nm.data))) ∧
    (nm.data.all isAscii = false →
      capnp_display_name_to_ident nm =
        Except.error
          (CapnpError.unimplemented "non-ascii names are unsupported")) := by
  constructor <;> intro h <;>
    simp [capnp_display_name_to_ident, h, camel_eq_runs]

theorem display_name_to_ident_spec_witness :
    ("x9y _z!ab".data.all isAscii = true) ∧
    capnp_display_name_to_ident "x9y _z!ab" =
      Except.ok (String.mk (camelRuns "x9y _z!ab".data)) ∧
    ("é".data.all isAscii = false) ∧
    capnp_display_name_to_ident "é" =
      Except.error
        (CapnpError.unimplemented "non-ascii names are unsupported") :=
  ⟨by decide, (display_name_to_ident_spec _).1 (by decide),
    by decide, (display_name_to_ident_spec _).2 (by decide)⟩

/-! ### The typescript generation context -/

/-- TypeIdent from typescript.rs lines 49 to 62. -/
inductive TypeIdent where
  | null | bool | number | string
  | literal (s : String)
  | base64Data | hexData
  | enum (nm : String)
  | struct (nm : String)
  | union (variants : List TypeIdent)
  | arrayOf (elem : TypeIdent)
deriving Repr

namespace TypeIdent

mutual
def beq : TypeIdent → TypeIdent → Bool
  | .null, .null => true
  | .bool, .bool => true
  | .number, .number => true
  | .string, .string => true
  | .literal a, .literal b => a == b
  | .base64Data, .base64Data => true
  | .hexData, .hexData => true
  | .enum a, .enum b => a == b
  | .struct a, .struct b => a == b
  | .union a, .union b => beqList a b
  | .arrayOf a, .arrayOf b => beq a b
  | _, _ => false

def beqList : List TypeIdent → List TypeIdent → Bool
  | [], [] => true
  | a :: as, b :: bs => beq a b && beqList as bs
  | _, _ => false
end

mutual
theorem beq_iff : ∀ a b : TypeIdent, beq a b = true ↔ a = b
  | a, b => by
    cases a <;> cases b <;> simp [beq] <;>
      first
        | rfl
        | (try simp [beq_iff, beqList_iff])

theorem beqList_iff : ∀ a b : List TypeIdent, beqList a b = true ↔ a = b
  | [], [] => by simp [beqList]
  | a :: as, b :: bs => by simp [beqList, beq_iff, beqList_iff]
  | [], _ :: _ => by simp [beqList]
  | _ :: _, [] => by simp [beqList]
end

instance : DecidableEq TypeIdent := fun a b =>
  decidable_of_iff (beq a b = true) (beq_iff a b)

/-- TypeIdent::for_data from typescript.rs. -/
def for_data (format : DataFormat) : TypeIdent :=
  match format with
  | .hex => .hexData
  | .base64 => .base64Data

/-- TypeIdent::from_struct from typescript.rs. -/
def from_struct (schema : StructSchema) : Except CapnpError TypeIdent := do
  let ident ← capnp_display_name_to_ident schema.displayName
  .ok (.struct ident)

/-- TypeIdent::from_union_variant from typescript.rs: the struct's
identifier with the variant field name, first character uppercased,
appended.  The source panics when the field name is empty; the embedding
makes that an error. -/
def from_union_variant (schema : StructSchema) (variant : Field) :
    Except CapnpError TypeIdent := do
  let base ← capnp_display_name_to_ident schema.displayName
  match variant.name.data with
  | [] => .error (.unimplemented "field name non-empty")
  | c :: rest => .ok (.struct (base ++ String.mk (c.toUpper :: rest)))

/-- TypeIdent::from_enum from typescript.rs. -/
def from_enum (schema : EnumSchema) : Except CapnpError TypeIdent := do
  let ident ← capnp_display_name_to_ident schema.displayName
  .ok (.enum ident)

end TypeIdent

/-- Modelled from the spec: the two-mode policy for enum values absent
from the local schema, defined in the serialize module whose source is
not part of this tree; typescript.rs compares the option against
UseNumber. -/
inductive OnEnumerantNotInSchema where
  | useNumber
  | error
deriving DecidableEq, Repr

/-- Modelled from the spec: serialize::Opts, the configuration surface;
the spec fixes UseNumber as the permissive default. -/
structure Opts where
  on_enumerant_not_in_schema : OnEnumerantNotInSchema :=
    OnEnumerantNotInSchema.useNumber
deriving DecidableEq, Repr

/-- Item from typescript.rs lines 40 to 47. -/
inductive Item where
  | alias (nm : TypeIdent) (value : TypeIdent)
  | interface (ident : TypeIdent) (fields : List (String × TypeIdent))
deriving DecidableEq, Repr

/-- Context from typescript.rs lines 33 to 38.  The visited HashSet is
modelled as a list with membership; items accumulate in emission order. -/
structure Context where
  opts : Opts
  items : List Item
  visited : List TypeIdent
deriving DecidableEq, Repr

/-- Context::new. -/
def Context.new (opts : Opts) : Context :=
  { opts := opts, items := [], visited := [] }

/-- One insertion into the BTreeMap keyed by code order: keys kept in
ascending order, an equal key overwrites. -/
def btreeInsert (k : Nat) (v : String × TypeIdent) :
    List (Nat × (String × TypeIdent)) → List (Nat × (String × TypeIdent))
  | [] => [(k, v)]
  | (k', v') :: rest =>
      if k < k' then (k, v) :: (k', v') :: rest
      else if k = k' then (k, v) :: rest
      else (k', v') :: btreeInsert k v rest

theorem StructSchema.sizeOf_nonUnionFields (s : StructSchema) :
    sizeOf s.nonUnionFields < sizeOf s := by
  cases s <;> simp [StructSchema.nonUnionFields] <;> omega

theorem StructSchema.sizeOf_unionFields (s : StructSchema) :
    sizeOf s.unionFields < sizeOf s := by
  cases s <;> simp [StructSchema.unionFields] <;> omega

theorem Field.sizeOf_ty (f : Field) : sizeOf f.ty < sizeOf f := by
  cases f <;> simp [Field.ty] <;> omega

/-- visit_data from typescript.rs lines 145 to 154: a data field with no
encoding annot is not representable; otherwise the HexData or Base64Data
alias is emitted once per session. -/
def visit_data (ctx : Context) (field : JsonAnnots) :
    Except CapnpError (Context × Option TypeIdent) :=
  match field.data_format with
  | none => .ok (ctx, none)
  | some format =>
      let ident := TypeIdent.for_data format
      if ident ∈ ctx.visited then
        .ok (ctx, some ident)
      else
        .ok ({ ctx with
          visited := ident :: ctx.visited,
          items := ctx.items ++ [Item.alias ident TypeIdent.string] },
          some ident)

/-- The enumerant loop of visit_enum (typescript.rs lines 218 to 222). -/
def enum_variants : List Enumerant → Except CapnpError (List TypeIdent)
  | [] => .ok []
  | e :: rest => do
      let value ← enumerant_value e
      let vs ← enum_variants rest
      .ok (.literal value :: vs)

/-- visit_enum from typescript.rs lines 210 to 233. -/
def visit_enum (ctx : Context) (schema : EnumSchema) :
    Except CapnpError (Context × TypeIdent) := do
  let ident ← TypeIdent.from_enum schema
  if ident ∈ ctx.visited then
    return (ctx, ident)
  let ctx1 : Context := { ctx with visited := ident :: ctx.visited }
  let lits ← enum_variants schema.enumerants
  let variants :=
    if ctx1.opts.on_enumerant_not_in_schema = OnEnumerantNotInSchema.useNumber
    then lits ++ [TypeIdent.number]
    else lits
  .ok ({ ctx1 with
    items := ctx1.items ++ [Item.alias ident (TypeIdent.union variants)] },
    ident)

mutual
/-- visit_type from typescript.rs lines 104 to 143.  The source panics
when visit_type reaches Data with no field annots; the embedding makes
that an error. -/
def visit_type (ctx : Context) (schema : Ty) (field : Option JsonAnnots) :
    Except CapnpError (Context × Option TypeIdent) :=
  match schema with
  | .void => .ok (ctx, some .null)
  | .bool => .ok (ctx, some .bool)
  | .int8 | .int16 | .int32 | .int64
  | .uint8 | .uint16 | .uint32 | .uint64
  | .float32 | .float64 => .ok (ctx, some .number)
  | .text => .ok (ctx, some .string)
  | .data =>
      match field with
      | some f => visit_data ctx f
      | none => .error (.unimplemented "visit_type for Data must be on field")
  | .struct s => do
      let (c, ident) ← visit_struct ctx s
      .ok (c, some ident)
  | .anyPointer => .ok (ctx, none)
  | .capability => .ok (ctx, none)
  | .enum e => do
      let (c, ident) ← visit_enum ctx e
      .ok (c, some ident)
  | .list elem => do
      let (c, r) ← visit_type ctx elem field
      match r with
      | some t => .ok (c, some (.arrayOf t))
      | none => .ok (c, none)
termination_by sizeOf schema

/-- visit_struct from typescript.rs lines 156 to 208. -/
def visit_struct (ctx : Context) (schema : StructSchema) :
    Except CapnpError (Context × TypeIdent) := do
  let ident ← TypeIdent.from_struct schema
  if ident ∈ ctx.visited then
    return (ctx, ident)
  let ctx1 : Context := { ctx with visited := ident :: ctx.visited }
  let (ctx2, tree) ← visit_nonunion ctx1 schema.nonUnionFields []
  let non_union_fields := tree.map Prod.snd
  if schema.has_union_fields then
    let opts ← read_discriminator schema
    let (ctx3, variants) ←
      visit_variants ctx2 schema schema.unionFields opts non_union_fields
    .ok ({ ctx3 with
      items := ctx3.items ++ [Item.alias ident (TypeIdent.union variants)] },
      ident)
  else
    .ok ({ ctx2 with
      items := ctx2.items ++ [Item.interface ident non_union_fields] },
      ident)
termination_by sizeOf schema
decreasing_by
  all_goals first
    | exact StructSchema.sizeOf_nonUnionFields schema
    | exact StructSchema.sizeOf_unionFields schema

/-- The non-union field loop of visit_struct (typescript.rs lines 164 to
172): each representable field is inserted into the BTreeMap keyed by its
code order. -/
def visit_nonunion (ctx : Context) (fields : List Field)
    (acc : List (Nat × (String × TypeIdent))) :
    Except CapnpError (Context × List (Nat × (String × TypeIdent))) :=
  match fields with
  | [] => .ok (ctx, acc)
  | f :: rest => do
      let annots ← read_annots f.annots
      let nm ← field_name f annots
      let (c, r) ← visit_type ctx f.ty (some annots)
      match r with
      | some t => visit_nonunion c rest (btreeInsert f.codeOrder (nm, t) acc)
      | none => visit_nonunion c rest acc
termination_by sizeOf fields
decreasing_by all_goals (have hsz := Field.sizeOf_ty f; simp only [List.cons.sizeOf_spec]; omega)

/-- The union field loop of visit_struct (typescript.rs lines 178 to
196): each representable variant emits one interface carrying the
non-union fields plus the variant's entry, and contributes its variant
identifier to the alias union. -/
def visit_variants (ctx : Context) (schema : StructSchema)
    (fields : List Field) (opts : DiscriminatorOptions)
    (nonUnion : List (String × TypeIdent)) :
    Except CapnpError (Context × List TypeIdent) :=
  match fields with
  | [] => .ok (ctx, [])
  | f :: rest => do
      let annots ← read_annots f.annots
      let (c, r) ← visit_type ctx f.ty (some annots)
      match r with
      | none => visit_variants c schema rest opts nonUnion
      | some type_id => do
          let variant_ident ← TypeIdent.from_union_variant schema f
          let nm ← match opts.value_name with
            | some v => pure v
            | none => field_name f annots
          let c1 : Context := { c with items := c.items ++
            [Item.interface variant_ident (nonUnion ++ [(nm, type_id)])] }
          let (c2, vs) ← visit_variants c1 schema rest opts nonUnion
          .ok (c2, variant_ident :: vs)
termination_by sizeOf fields
decreasing_by all_goals (have hsz := Field.sizeOf_ty f; simp only [List.cons.sizeOf_spec]; omega)
end

/-- Context::add from typescript.rs lines 84 to 93: introspects the added
struct type and visits it, discarding the returned identifier. -/
def Context.add (ctx : Context) (schema : StructSchema) :
    Except CapnpError Context := do
  let (c, _) ← visit_struct ctx schema
  .ok c

/-! ### Claim C9: enum generation -/

/-- The resolved name of an enumerant: the name annot override when
present, the declared name otherwise. -/
def resolvedEnumName (en : Enumerant) : String :=
  match (en.annots.foldl readAnnotsStep {}).name with
  | some v => v
  | none => en.name

theorem enum_variants_eq (es : List Enumerant) :
    enum_variants es =
      Except.ok (es.map fun en => TypeIdent.literal (resolvedEnumName en)) := by
  induction es with
  | nil => rfl
  | cons e rest ih =>
      simp only [enum_variants, enumerant_value, read_annots, ok_bind,
        resolvedEnumName, ih]
      cases h : (e.annots.foldl readAnnotsStep {}).name <;>
        simp [h, ok_bind]

/-- C9: visiting a fresh enum schema emits exactly one alias declaration
naming a union of string-literal types, one literal per enumerant's
resolved name in enumerant order, with a numeric member appended exactly
when the configured enumerant fallback policy is UseNumber. -/
theorem visit_enum_emits_literal_union (ctx : Context) (e : EnumSchema)
    (ident : TypeIdent)
    (hident : TypeIdent.from_enum e = Except.ok ident)
    (hfresh : ident ∉ ctx.visited) :
    visit_enum ctx e = Except.ok
      ({ ctx with
          visited := ident :: ctx.visited,
          items := ctx.items ++
            [Item.alias ident (TypeIdent.union
              ((e.enumerants.map fun en =>
                  TypeIdent.literal (resolvedEnumName en)) ++
                (if ctx.opts.on_enumerant_not_in_schema =
                    OnEnumerantNotInSchema.useNumber
                  then [TypeIdent.number] else [])))] },
        ident) := by
  simp only [visit_enum, hident, ok_bind, enum_variants_eq]
  cases h : ctx.opts.on_enumerant_not_in_schema <;>
    simp [h, hfresh]

/-- An enum schema with one renamed enumerant. -/
def colorEnum : EnumSchema :=
  { displayName := "test.capnp:Color",
    enumerants := [{ name := "red", annots := [] },
                   { name := "green", annots := [Annot.name "verde"] }] }

theorem visit_enum_emits_literal_union_witness :
    TypeIdent.from_enum colorEnum =
      Except.ok (TypeIdent.enum "TestCapnpColor") ∧
    TypeIdent.enum "TestCapnpColor" ∉ (Context.new {}).visited ∧
    visit_enum (Context.new {}) colorEnum = Except.ok
      ({ opts := {},
         items := [Item.alias (TypeIdent.enum "TestCapnpColor")
           (TypeIdent.union [TypeIdent.literal "red",
             TypeIdent.literal "verde", TypeIdent.number])],
         visited := [TypeIdent.enum "TestCapnpColor"] },
       TypeIdent.enum "TestCapnpColor") :=
  ⟨rfl, by simp [Context.new],
    visit_enum_emits_literal_union (Context.new {}) colorEnum
      (TypeIdent.enum "TestCapnpColor") rfl (by simp [Context.new])⟩

/-! ### Success-value helper lemmas -/

/-- The value field_name returns: the annot override or the declared
name. -/
def fieldNameStr (f : Field) (a : JsonAnnots) : String :=
  match a.name with
  | some n => n
  | none => f.name

theorem field_name_eq (f : Field) (a : JsonAnnots) :
    field_name f a = Except.ok (fieldNameStr f a) := by
  cases h : a.name <;> simp [field_name, fieldNameStr, h]

theorem read_discriminator_isOk (s : StructSchema) :
    ∃ o, read_discriminator s = Except.ok o := by
  unfold read_discriminator
  cases h : s.annots.find? Annot.isDiscriminator with
  | none => exact ⟨_, rfl⟩
  | some a => cases a <;> exact ⟨_, rfl⟩

/-! ### The visited set only grows -/

theorem visit_data_visited_mono (ctx : Context) (fa : JsonAnnots)
    (c : Context) (r : Option TypeIdent)
    (h : visit_data ctx fa = Except.ok (c, r)) :
    ctx.visited ⊆ c.visited := by
  unfold visit_data at h
  cases hf : fa.data_format with
  | none =>
      rw [hf] at h
      simp at h
      rw [← h.1]
      exact fun x hx => hx
  | some format =>
      rw [hf] at h
      by_cases hm : TypeIdent.for_data format ∈ ctx.visited <;>
        simp [hm] at h
      · rw [← h.1]
        exact fun x hx => hx
      · rw [← h.1]
        exact fun x hx => List.mem_cons_of_mem _ hx

theorem visit_enum_visited_mono (ctx : Context) (e : EnumSchema)
    (c : Context) (i : TypeIdent)
    (h : visit_enum ctx e = Except.ok (c, i)) :
    ctx.visited ⊆ c.visited := by
  unfold visit_enum at h
  cases hi : TypeIdent.from_enum e with
  | error er => rw [hi] at h; simp [err_bind] at h
  | ok ident =>
      rw [hi] at h
      simp only [ok_bind] at h
      by_cases hm : ident ∈ ctx.visited <;> simp [hm, pure_eq_ok] at h
      · rw [← h.1]
        exact fun x hx => hx
      · rw [enum_variants_eq] at h
        simp only [ok_bind, Except.ok.injEq, Prod.mk.injEq] at h
        rw [← h.1]
        exact fun x hx => List.mem_cons_of_mem _ hx

/-! ### Monotonicity of the visited set (shared infrastructure) -/

mutual
theorem visit_type_visited_mono :
    ∀ (ctx : Context) (t : Ty) (fa : Option JsonAnnots) (c : Context)
      (r : Option TypeIdent),
      visit_type ctx t fa = Except.ok (c, r) → ctx.visited ⊆ c.visited
  | ctx, t, fa, c, r => by
    intro h
    cases t with
    | data =>
        cases fa with
        | none => simp [visit_type] at h
        | some f =>
            simp only [visit_type] at h
            exact visit_data_visited_mono ctx f c r h
    | struct s =>
        simp only [visit_type] at h
        cases hs : visit_struct ctx s with
        | error er => rw [hs, err_bind] at h; cases h
        | ok p =>
            obtain ⟨pc, pi⟩ := p
            rw [hs] at h
            simp only [ok_bind, Except.ok.injEq, Prod.mk.injEq] at h
            rw [← h.1]
            exact visit_struct_visited_mono ctx s pc pi hs
    | enum e =>
        simp only [visit_type] at h
        cases hs : visit_enum ctx e with
        | error er => rw [hs, err_bind] at h; cases h
        | ok p =>
            obtain ⟨pc, pi⟩ := p
            rw [hs] at h
            simp only [ok_bind, Except.ok.injEq, Prod.mk.injEq] at h
            rw [← h.1]
            exact visit_enum_visited_mono ctx e pc pi hs
    | list elem =>
        simp only [visit_type] at h
        cases hv : visit_type ctx elem fa with
        | error er => rw [hv, err_bind] at h; cases h
        | ok p =>
            obtain ⟨pc, pr⟩ := p
            rw [hv] at h
            have hsub := visit_type_visited_mono ctx elem fa pc pr hv
            cases pr with
            | some t0 =>
                simp only [ok_bind, Except.ok.injEq, Prod.mk.injEq] at h
                rw [← h.1]; exact hsub
            | none =>
                simp only [ok_bind, Except.ok.injEq, Prod.mk.injEq] at h
                rw [← h.1]; exact hsub
    | _ =>
        simp only [visit_type, Except.ok.injEq, Prod.mk.injEq] at h
        rw [← h.1]
        exact fun x hx => hx
termination_by _ t _ _ _ => sizeOf t

theorem visit_struct_visited_mono :
    ∀ (ctx : Context) (s : StructSchema) (c : Context) (i : TypeIdent),
      visit_struct ctx s = Except.ok (c, i) → ctx.visited ⊆ c.visited
  | ctx, s, c, i => by
    intro h
    rw [visit_struct] at h
    cases hfi : TypeIdent.from_struct s with
    | error er => rw [hfi, err_bind] at h; cases h
    | ok ident =>
        rw [hfi] at h
        simp only [ok_bind] at h
        by_cases hm : ident ∈ ctx.visited
        · rw [if_pos hm] at h
          simp only [pure_eq_ok, Except.ok.injEq, Prod.mk.injEq] at h
          rw [← h.1]; exact fun x hx => hx
        · rw [if_neg hm] at h
          cases hnu : visit_nonunion { ctx with visited := ident :: ctx.visited }
              s.nonUnionFields [] with
          | error er => rw [hnu, err_bind] at h; cases h
          | ok p =>
              obtain ⟨c2, tree⟩ := p
              rw [hnu] at h
              simp only [ok_bind] at h
              have h1 : ctx.visited ⊆ c2.visited := by
                have hsub := visit_nonunion_visited_mono _ s.nonUnionFields [] c2 tree hnu
                exact fun x hx => hsub (List.mem_cons_of_mem _ hx)
              by_cases hu : s.has_union_fields = true
              · rw [if_pos hu] at h
                obtain ⟨o, ho⟩ := read_discriminator_isOk s
                rw [ho] at h
                simp only [ok_bind] at h
                cases hvv : visit_variants c2 s s.unionFields o (tree.map Prod.snd) with
                | error er => rw [hvv, err_bind] at h; cases h
                | ok q =>
                    obtain ⟨c3, vs⟩ := q
                    rw [hvv] at h
                    simp only [pure_eq_ok, ok_bind, Except.ok.injEq,
                      Prod.mk.injEq] at h
                    rw [← h.1]
                    have h2 := visit_variants_visited_mono c2 s s.unionFields o
                      (tree.map Prod.snd) c3 vs hvv
                    exact fun x hx => h2 (h1 hx)
              · rw [if_neg hu] at h
                simp only [pure_eq_ok, ok_bind, Except.ok.injEq,
                  Prod.mk.injEq] at h
                rw [← h.1]
                exact h1
termination_by _ s _ _ => sizeOf s
decreasing_by
  all_goals first
    | exact StructSchema.sizeOf_nonUnionFields s
    | exact StructSchema.sizeOf_unionFields s

theorem visit_nonunion_visited_mono :
    ∀ (ctx : Context) (fields : List Field)
      (acc : List (Nat × (String × TypeIdent))) (c : Context)
      (tree : List (Nat × (String × TypeIdent))),
      visit_nonunion ctx fields acc = Except.ok (c, tree) →
      ctx.visited ⊆ c.visited
  | ctx, [], acc, c, tree => by
      intro h
      rw [visit_nonunion] at h
      simp only [Except.ok.injEq, Prod.mk.injEq] at h
      rw [← h.1]; exact fun x hx => hx
  | ctx, f :: rest, acc, c, tree => by
      intro h
      rw [visit_nonunion] at h
      simp only [read_annots, ok_bind, field_name_eq] at h
      cases hv : visit_type ctx f.ty (some (f.annots.foldl readAnnotsStep {})) with
      | error er => rw [hv, err_bind] at h; cases h
      | ok p =>
          obtain ⟨pc, pr⟩ := p
          rw [hv] at h
          simp only [ok_bind] at h
          have hsub := visit_type_visited_mono ctx f.ty _ pc pr hv
          cases pr with
          | some t0 =>
              have h2 := visit_nonunion_visited_mono pc rest _ c tree h
              exact fun x hx => h2 (hsub hx)
          | none =>
              have h2 := visit_nonunion_visited_mono pc rest _ c tree h
              exact fun x hx => h2 (hsub hx)
termination_by _ fields _ _ _ => sizeOf fields
decreasing_by
  all_goals (have hsz := Field.sizeOf_ty f; simp only [List.cons.sizeOf_spec]; omega)

theorem visit_variants_visited_mono :
    ∀ (ctx : Context) (s : StructSchema) (fields : List Field)
      (opts : DiscriminatorOptions) (nonUnion : List (String × TypeIdent))
      (c : Context) (vs : List TypeIdent),
      visit_variants ctx s fields opts nonUnion = Except.ok (c, vs) →
      ctx.visited ⊆ c.visited
  | ctx, s, [], opts, nonUnion, c, vs => by
      intro h
      rw [visit_variants] at h
      simp only [Except.ok.injEq, Prod.mk.injEq] at h
      rw [← h.1]; exact fun x hx => hx
  | ctx, s, f :: rest, opts, nonUnion, c, vs => by
      intro h
      rw [visit_variants] at h
      simp only [read_annots, ok_bind] at h
      cases hv : visit_type ctx f.ty (some (f.annots.foldl readAnnotsStep {})) with
      | error er => rw [hv, err_bind] at h; cases h
      | ok p =>
          obtain ⟨pc, pr⟩ := p
          rw [hv] at h
          simp only [ok_bind] at h
          have hsub := visit_type_visited_mono ctx f.ty _ pc pr hv
          cases pr with
          | none =>
              have h2 := visit_variants_visited_mono pc s rest opts nonUnion c vs h
              exact fun x hx => h2 (hsub hx)
          | some t0 =>
              cases hfu : TypeIdent.from_union_variant s f with
              | error er => simp [hfu, err_bind] at h
              | ok vident =>
                  simp only [hfu, ok_bind] at h
                  cases hvn : opts.value_name with
                  | some v =>
                      simp only [hvn, pure_eq_ok, ok_bind] at h
                      cases hrec : visit_variants
                          { pc with items := pc.items ++
                            [Item.interface vident (nonUnion ++ [(v, t0)])] }
                          s rest opts nonUnion with
                      | error er => rw [hrec, err_bind] at h; cases h
                      | ok q =>
                          obtain ⟨c2, vs2⟩ := q
                          rw [hrec] at h
                          simp only [ok_bind, Except.ok.injEq, Prod.mk.injEq] at h
                          rw [← h.1]
                          have h2 := visit_variants_visited_mono _ s rest opts
                            nonUnion c2 vs2 hrec
                          exact fun x hx => h2 (hsub hx)
                  | none =>
                      simp only [hvn, field_name_eq, ok_bind] at h
                      cases hrec : visit_variants
                          { pc with items := pc.items ++
                            [Item.interface vident (nonUnion ++
                              [(fieldNameStr f (f.annots.foldl readAnnotsStep {}), t0)])] }
                          s rest opts nonUnion with
                      | error er => rw [hrec, err_bind] at h; cases h
                      | ok q =>
                          obtain ⟨c2, vs2⟩ := q
                          rw [hrec] at h
                          simp only [ok_bind, Except.ok.injEq, Prod.mk.injEq] at h
                          rw [← h.1]
                          have h2 := visit_variants_visited_mono _ s rest opts
                            nonUnion c2 vs2 hrec
                          exact fun x hx => h2 (hsub hx)
termination_by _ _ fields _ _ _ _ => sizeOf fields
decreasing_by
  all_goals (have hsz := Field.sizeOf_ty f; simp only [List.cons.sizeOf_spec]; omega)
end

/-! ### Claim C7: memoized idempotence -/

theorem visit_struct_ok_shape (ctx : Context) (s : StructSchema)
    (c : Context) (i : TypeIdent)
    (h : visit_struct ctx s = Except.ok (c, i)) :
    TypeIdent.from_struct s = Except.ok i ∧ i ∈ c.visited := by
  rw [visit_struct] at h
  cases hfi : TypeIdent.from_struct s with
  | error er => rw [hfi, err_bind] at h; cases h
  | ok ident =>
      rw [hfi] at h
      simp only [ok_bind] at h
      by_cases hm : ident ∈ ctx.visited
      · rw [if_pos hm] at h
        simp only [pure_eq_ok, Except.ok.injEq, Prod.mk.injEq] at h
        rw [← h.1, ← h.2]
        exact ⟨rfl, hm⟩
      · rw [if_neg hm] at h
        cases hnu : visit_nonunion { ctx with visited := ident :: ctx.visited }
            s.nonUnionFields [] with
        | error er => rw [hnu, err_bind] at h; cases h
        | ok p =>
            obtain ⟨c2, tree⟩ := p
            rw [hnu] at h
            simp only [ok_bind] at h
            have hmem2 : ident ∈ c2.visited := by
              have hsub := visit_nonunion_visited_mono _ s.nonUnionFields []
                c2 tree hnu
              exact hsub (List.mem_cons_self _ _)
            by_cases hu : s.has_union_fields = true
            · rw [if_pos hu] at h
              obtain ⟨o, ho⟩ := read_discriminator_isOk s
              rw [ho] at h
              simp only [ok_bind] at h
              cases hvv : visit_variants c2 s s.unionFields o
                  (tree.map Prod.snd) with
              | error er => rw [hvv, err_bind] at h; cases h
              | ok q =>
                  obtain ⟨c3, vs⟩ := q
                  rw [hvv] at h
                  simp only [pure_eq_ok, ok_bind, Except.ok.injEq,
                    Prod.mk.injEq] at h
                  have hmem3 : ident ∈ c3.visited :=
                    visit_variants_visited_mono c2 s s.unionFields o
                      (tree.map Prod.snd) c3 vs hvv hmem2
                  rw [← h.1, ← h.2]
                  exact ⟨rfl, hmem3⟩
            · rw [if_neg hu] at h
              simp only [pure_eq_ok, ok_bind, Except.ok.injEq,
                Prod.mk.injEq] at h
              rw [← h.1, ← h.2]
              exact ⟨rfl, hmem2⟩

theorem visit_enum_ok_shape (ctx : Context) (e : EnumSchema)
    (c : Context) (i : TypeIdent)
    (h : visit_enum ctx e = Except.ok (c, i)) :
    TypeIdent.from_enum e = Except.ok i ∧ i ∈ c.visited := by
  unfold visit_enum at h
  cases hfi : TypeIdent.from_enum e with
  | error er => rw [hfi] at h; simp [err_bind] at h
  | ok ident =>
      rw [hfi] at h
      simp only [ok_bind] at h
      by_cases hm : ident ∈ ctx.visited
      · rw [if_pos hm] at h
        simp only [pure_eq_ok, Except.ok.injEq, Prod.mk.injEq] at h
        rw [← h.1, ← h.2]
        exact ⟨rfl, hm⟩
      · rw [if_neg hm] at h
        rw [enum_variants_eq] at h
        simp only [pure_eq_ok, ok_bind, Except.ok.injEq, Prod.mk.injEq] at h
        rw [← h.1, ← h.2]
        exact ⟨rfl, List.mem_cons_self _ _⟩

/-- C7: within one session, visiting an already added struct schema (or
enum schema) again short-circuits: the second visit returns the same
identifier and leaves the context, in particular the emitted item list,
unchanged, and adding the struct again emits nothing. -/
theorem visit_memoized_idempotent :
    (∀ (ctx : Context) (s : StructSchema) (c : Context) (i : TypeIdent),
        visit_struct ctx s = Except.ok (c, i) →
        visit_struct c s = Except.ok (c, i) ∧
        Context.add c s = Except.ok c) ∧
    (∀ (ctx : Context) (e : EnumSchema) (c : Context) (i : TypeIdent),
        visit_enum ctx e = Except.ok (c, i) →
        visit_enum c e = Except.ok (c, i)) := by
  constructor
  · intro ctx s c i h
    obtain ⟨hfi, hmem⟩ := visit_struct_ok_shape ctx s c i h
    have hsecond : visit_struct c s = Except.ok (c, i) := by
      rw [visit_struct, hfi]
      simp [ok_bind, hmem, pure_eq_ok]
    refine ⟨hsecond, ?_⟩
    simp [Context.add, hsecond, ok_bind]
  · intro ctx e c i h
    obtain ⟨hfi, hmem⟩ := visit_enum_ok_shape ctx e c i h
    rw [visit_enum, hfi]
    simp [ok_bind, hmem, pure_eq_ok]

/-- A minimal struct schema for the memoization witness. -/
def memoStruct : StructSchema := StructSchema.mk "A" "A" [] [] []

/-- The context produced by adding memoStruct to a fresh session. -/
def memoCtx : Context :=
  { opts := {}, items := [Item.interface (TypeIdent.struct "A") []],
    visited := [TypeIdent.struct "A"] }

theorem visit_memoized_idempotent_witness :
    visit_struct (Context.new {}) memoStruct =
      Except.ok (memoCtx, TypeIdent.struct "A") ∧
    visit_struct memoCtx memoStruct =
      Except.ok (memoCtx, TypeIdent.struct "A") ∧
    Context.add memoCtx memoStruct = Except.ok memoCtx := by
  have h1 : visit_struct (Context.new {}) memoStruct =
      Except.ok (memoCtx, TypeIdent.struct "A") := by
    simp [visit_struct, visit_nonunion, Context.new, TypeIdent.from_struct,
      capnp_display_name_to_ident, ok_bind, StructSchema.has_union_fields,
      StructSchema.nonUnionFields, StructSchema.unionFields,
      StructSchema.displayName, camel, isAscii, memoStruct, memoCtx]
  have h2 := visit_memoized_idempotent.1 (Context.new {}) memoStruct memoCtx
    (TypeIdent.struct "A") h1
  exact ⟨h1, h2.1, h2.2⟩

/-! ### Claim C6: non-union fields appear in code order -/

/-- Scalar type kinds whose visit leaves the context untouched. -/
def Ty.isSimple : Ty → Bool
  | .void | .bool | .int8 | .int16 | .int32 | .int64
  | .uint8 | .uint16 | .uint32 | .uint64 | .float32 | .float64
  | .text | .anyPointer | .capability => true
  | _ => false

/-- The identifier visit_type yields for a scalar kind; none for the
non-representable AnyPointer and Capability. -/
def Ty.simpleIdent : Ty → Option TypeIdent
  | .void => some .null
  | .bool => some .bool
  | .int8 | .int16 | .int32 | .int64
  | .uint8 | .uint16 | .uint32 | .uint64
  | .float32 | .float64 => some .number
  | .text => some .string
  | _ => none

theorem visit_type_simple (ctx : Context) (t : Ty) (fa : Option JsonAnnots)
    (h : t.isSimple = true) :
    visit_type ctx t fa = Except.ok (ctx, t.simpleIdent) := by
  cases t <;> simp [Ty.isSimple] at h <;>
    simp [visit_type, Ty.simpleIdent]

/-- The resolved JSON key of a field: annot override or declared name. -/
def resolvedFieldName (f : Field) : String :=
  fieldNameStr f (f.annots.foldl readAnnotsStep {})

/-- The interface entry a representable scalar field contributes. -/
def fieldEntry (f : Field) : String × TypeIdent :=
  (resolvedFieldName f, (f.ty.simpleIdent).getD TypeIdent.null)

/-- A field's BTreeMap entry: code order key and interface entry. -/
def fieldPair (f : Field) : Nat × (String × TypeIdent) :=
  (f.codeOrder, fieldEntry f)

theorem visit_nonunion_simple (fields : List Field) :
    ∀ (ctx : Context) (acc : List (Nat × (String × TypeIdent))),
      (∀ f ∈ fields, f.ty.isSimple = true) →
      visit_nonunion ctx fields acc = Except.ok (ctx,
        fields.foldl (fun a f =>
          match f.ty.simpleIdent with
          | some t => btreeInsert f.codeOrder (resolvedFieldName f, t) a
          | none => a) acc) := by
  induction fields with
  | nil => intro ctx acc _; rw [visit_nonunion]; rfl
  | cons f rest ih =>
      intro ctx acc h
      rw [visit_nonunion]
      simp only [read_annots, ok_bind, field_name_eq]
      rw [visit_type_simple ctx f.ty _ (h f (List.mem_cons_self _ _))]
      simp only [ok_bind, List.foldl_cons]
      cases hs : f.ty.simpleIdent with
      | some t =>
          simp only [hs]
          exact ih ctx _ (fun g hg => h g (List.mem_cons_of_mem _ hg))
      | none =>
          simp only [hs]
          exact ih ctx _ (fun g hg => h g (List.mem_cons_of_mem _ hg))

theorem foldl_skip_eq_filter (l : List Field) :
    ∀ acc,
      l.foldl (fun a f =>
        match f.ty.simpleIdent with
        | some t => btreeInsert f.codeOrder (resolvedFieldName f, t) a
        | none => a) acc =
      (l.filter fun f => (f.ty.simpleIdent).isSome).foldl
        (fun a f => btreeInsert f.codeOrder (fieldEntry f) a) acc := by
  induction l with
  | nil => intro acc; rfl
  | cons f rest ih =>
      intro acc
      cases hs : f.ty.simpleIdent with
      | some t =>
          have hent : fieldEntry f = (resolvedFieldName f, t) := by
            simp [fieldEntry, hs]
          simp only [List.foldl_cons, hs, List.filter_cons]
          rw [if_pos (by simp [hs])]
          simp only [List.foldl_cons, hent]
          exact ih _
      | none =>
          simp only [List.foldl_cons, hs, List.filter_cons]
          rw [if_neg (by simp [hs])]
          exact ih _

/-! The BTreeMap fold agrees with a stable sort by code order. -/

theorem btreeInsert_mem (k : Nat) (v : String × TypeIdent) :
    ∀ (t : List (Nat × (String × TypeIdent))) (x : Nat × (String × TypeIdent)),
      x ∈ btreeInsert k v t → x = (k, v) ∨ x ∈ t := by
  intro t
  induction t with
  | nil =>
      intro x hx
      rw [btreeInsert] at hx
      exact Or.inl (List.mem_singleton.mp hx)
  | cons p rest ih =>
      obtain ⟨k', v'⟩ := p
      intro x hx
      rw [btreeInsert] at hx
      split_ifs at hx with h1 h2
      · rcases List.mem_cons.mp hx with h | h
        · exact Or.inl h
        · exact Or.inr h
      · rcases List.mem_cons.mp hx with h | h
        · exact Or.inl h
        · exact Or.inr (List.mem_cons_of_mem _ h)
      · rcases List.mem_cons.mp hx with h | h
        · exact Or.inr (h ▸ List.mem_cons_self _ _)
        · rcases ih x h with h' | h'
          · exact Or.inl h'
          · exact Or.inr (List.mem_cons_of_mem _ h')

theorem btreeInsert_perm (k : Nat) (v : String × TypeIdent) :
    ∀ (t : List (Nat × (String × TypeIdent))),
      k ∉ t.map Prod.fst → (btreeInsert k v t).Perm ((k, v) :: t) := by
  intro t
  induction t with
  | nil => intro _; rw [btreeInsert]
  | cons p rest ih =>
      obtain ⟨k', v'⟩ := p
      intro hk
      simp only [List.map_cons, List.mem_cons] at hk
      push_neg at hk
      rw [btreeInsert]
      split_ifs with h1 h2
      · exact List.Perm.refl _
      · exact absurd h2 hk.1
      · exact ((ih hk.2).cons (k', v')).trans (List.Perm.swap _ _ _)

theorem btreeInsert_sorted (k : Nat) (v : String × TypeIdent) :
    ∀ (t : List (Nat × (String × TypeIdent))),
      t.Pairwise (fun a b => a.1 < b.1) →
      (btreeInsert k v t).Pairwise (fun a b => a.1 < b.1) := by
  intro t
  induction t with
  | nil =>
      intro _
      rw [btreeInsert]
      exact List.pairwise_singleton _ _
  | cons p rest ih =>
      obtain ⟨k', v'⟩ := p
      intro ht
      rw [List.pairwise_cons] at ht
      obtain ⟨hall, hrest⟩ := ht
      rw [btreeInsert]
      split_ifs with h1 h2
      · refine List.Pairwise.cons ?_ (List.Pairwise.cons hall hrest)
        intro x hx
        rcases List.mem_cons.mp hx with rfl | hx'
        · exact h1
        · exact Nat.lt_trans h1 (hall x hx')
      · subst h2
        exact List.Pairwise.cons (fun x hx => hall x hx) hrest
      · refine List.Pairwise.cons ?_ (ih hrest)
        intro x hx
        rcases btreeInsert_mem k v rest x hx with rfl | hx'
        · show k' < k
          omega
        · exact hall x hx'

theorem foldl_btree_perm :
    ∀ (l : List Field) (acc : List (Nat × (String × TypeIdent))),
      (acc.map Prod.fst ++ l.map Field.codeOrder).Nodup →
      (l.foldl (fun a f => btreeInsert f.codeOrder (fieldEntry f) a) acc).Perm
        (acc ++ l.map fieldPair) := by
  intro l
  induction l with
  | nil => intro acc _; simp
  | cons f rest ih =>
      intro acc h
      simp only [List.map_cons] at h
      have hk : f.codeOrder ∉ acc.map Prod.fst := by
        intro hmem
        exact (List.nodup_append.mp h).2.2 hmem (List.mem_cons_self _ _)
      have hperm1 := btreeInsert_perm f.codeOrder (fieldEntry f) acc hk
      have hmid : List.Nodup (f.codeOrder :: (acc.map Prod.fst ++
          rest.map Field.codeOrder)) :=
        (List.perm_middle.nodup_iff).mp h
      have hkeys :
          ((btreeInsert f.codeOrder (fieldEntry f) acc).map Prod.fst ++
            rest.map Field.codeOrder).Nodup := by
        have hmapperm : ((btreeInsert f.codeOrder (fieldEntry f) acc).map
            Prod.fst).Perm (f.codeOrder :: acc.map Prod.fst) := by
          have := hperm1.map Prod.fst
          simpa using this
        have happ := hmapperm.append_right (rest.map Field.codeOrder)
        exact (happ.nodup_iff).mpr hmid
      have hrec := ih _ hkeys
      simp only [List.foldl_cons]
      refine hrec.trans ?_
      have : (btreeInsert f.codeOrder (fieldEntry f) acc ++
          rest.map fieldPair).Perm (((f.codeOrder, fieldEntry f) :: acc) ++
            rest.map fieldPair) :=
        hperm1.append_right _
      refine this.trans ?_
      simp only [List.cons_append, List.map_cons]
      exact List.perm_middle.symm

theorem foldl_btree_sorted :
    ∀ (l : List Field) (acc : List (Nat × (String × TypeIdent))),
      acc.Pairwise (fun a b => a.1 < b.1) →
      (l.foldl (fun a f => btreeInsert f.codeOrder (fieldEntry f) a)
          acc).Pairwise (fun a b => a.1 < b.1) := by
  intro l
  induction l with
  | nil => intro acc h; exact h
  | cons f rest ih =>
      intro acc h
      simp only [List.foldl_cons]
      exact ih _ (btreeInsert_sorted _ _ _ h)

/-- The comparison visit_struct effectively sorts non-union fields by. -/
def codeLe (f g : Field) : Bool := f.codeOrder ≤ g.codeOrder

theorem btree_fold_eq_mergeSort (l : List Field)
    (hdist : (l.map Field.codeOrder).Nodup) :
    l.foldl (fun a f => btreeInsert f.codeOrder (fieldEntry f) a) [] =
      (l.mergeSort codeLe).map fieldPair := by
  have hperm : (l.foldl (fun a f =>
      btreeInsert f.codeOrder (fieldEntry f) a) []).Perm (l.map fieldPair) := by
    simpa using foldl_btree_perm l [] (by simpa using hdist)
  have hsorted := foldl_btree_sorted l [] (List.Pairwise.nil)
  have hms_perm : ((l.mergeSort codeLe).map fieldPair).Perm
      (l.map fieldPair) := (List.mergeSort_perm l codeLe).map _
  have hms_le : (l.mergeSort codeLe).Pairwise (fun a b => codeLe a b) := by
    apply List.sorted_mergeSort
    · intro a b c hab hbc
      simp only [codeLe, decide_eq_true_eq] at *
      omega
    · intro a b
      simp only [codeLe, Bool.or_eq_true, decide_eq_true_eq]
      omega
  have hms_dist : ((l.mergeSort codeLe).map Field.codeOrder).Nodup := by
    have hp : ((l.mergeSort codeLe).map Field.codeOrder).Perm
        (l.map Field.codeOrder) := (List.mergeSort_perm l codeLe).map _
    exact (hp.nodup_iff).mpr hdist
  have hms_dist2 : (l.mergeSort codeLe).Pairwise
      (fun a b => a.codeOrder ≠ b.codeOrder) := by
    unfold List.Nodup at hms_dist
    rw [List.pairwise_map] at hms_dist
    exact hms_dist
  have hms_sorted : ((l.mergeSort codeLe).map fieldPair).Pairwise
      (fun a b => a.1 < b.1) := by
    rw [List.pairwise_map]
    have hand := hms_le.and hms_dist2
    refine hand.imp ?_
    intro a b hab
    obtain ⟨h1, h2⟩ := hab
    simp only [codeLe, decide_eq_true_eq] at h1
    simp only [fieldPair]
    omega
  haveI : IsAntisymm (Nat × (String × TypeIdent))
      (fun a b => a.1 < b.1) :=
    ⟨fun a b h1 h2 => absurd h2 (Nat.lt_asymm h1)⟩
  exact List.eq_of_perm_of_sorted (hperm.trans hms_perm.symm) hsorted
    hms_sorted

/-- C6: for a struct without a union whose field types are scalar kinds
and whose code orders are distinct, the emitted interface lists exactly
the representable fields, sorted by code order (not name or declaration
order), each keyed by its resolved name (annot override or declared
name); fields of non-representable type (AnyPointer, Capability) are
skipped entirely. -/
theorem visit_struct_fields_in_code_order (ctx : Context) (s : StructSchema)
    (ident : TypeIdent)
    (hnu : s.unionFields = [])
    (hsimple : ∀ f ∈ s.nonUnionFields, f.ty.isSimple = true)
    (hdist : (s.nonUnionFields.map Field.codeOrder).Nodup)
    (hident : TypeIdent.from_struct s = Except.ok ident)
    (hfresh : ident ∉ ctx.visited) :
    visit_struct ctx s = Except.ok
      ({ ctx with
          visited := ident :: ctx.visited,
          items := ctx.items ++
            [Item.interface ident
              (((s.nonUnionFields.filter
                  (fun f => (f.ty.simpleIdent).isSome)).mergeSort
                codeLe).map fieldEntry)] },
        ident) := by
  have hdistf : (((s.nonUnionFields.filter
      (fun f => (f.ty.simpleIdent).isSome)).map Field.codeOrder)).Nodup :=
    hdist.sublist ((List.filter_sublist _).map Field.codeOrder)
  rw [visit_struct, hident]
  simp only [ok_bind]
  rw [if_neg hfresh]
  rw [visit_nonunion_simple s.nonUnionFields _ [] hsimple]
  simp only [ok_bind]
  have hfalse : ¬(s.has_union_fields = true) := by
    simp [StructSchema.has_union_fields, hnu]
  rw [if_neg hfalse]
  rw [foldl_skip_eq_filter]
  rw [btree_fold_eq_mergeSort _ hdistf]
  simp [List.map_map, Function.comp, fieldPair]

/-- A no-union struct whose fields are declared out of code order, with a
rename annot and a skipped AnyPointer field. -/
def orderStruct : StructSchema :=
  StructSchema.mk "test.capnp:M" "M" []
    [Field.mk "beta" 1 [] Ty.text,
     Field.mk "alpha" 0 [Annot.name "renamed"] Ty.bool,
     Field.mk "ptr" 2 [] Ty.anyPointer] []

theorem visit_struct_fields_in_code_order_witness :
    orderStruct.unionFields = [] ∧
    (∀ f ∈ orderStruct.nonUnionFields, f.ty.isSimple = true) ∧
    (orderStruct.nonUnionFields.map Field.codeOrder).Nodup ∧
    TypeIdent.from_struct orderStruct =
      Except.ok (TypeIdent.struct "TestCapnpM") ∧
    TypeIdent.struct "TestCapnpM" ∉ (Context.new {}).visited ∧
    visit_struct (Context.new {}) orderStruct = Except.ok
      ({ opts := {},
         items := [] ++
           [Item.interface (TypeIdent.struct "TestCapnpM")
             (((orderStruct.nonUnionFields.filter
                 (fun f => (f.ty.simpleIdent).isSome)).mergeSort
               codeLe).map fieldEntry)],
         visited := [TypeIdent.struct "TestCapnpM"] },
       TypeIdent.struct "TestCapnpM") :=
  ⟨rfl, by decide, by decide, rfl, by simp [Context.new],
    visit_struct_fields_in_code_order (Context.new {}) orderStruct
      (TypeIdent.struct "TestCapnpM") rfl (by decide) (by decide) rfl
      (by simp [Context.new])⟩

/-! ### Claim C5: a union emits its variant interfaces plus one alias -/

/-- The identifier of a schema display name: upper camel case over the
character data. -/
def camelIdent (nm : String) : String := String.mk (camel nm.data true)

theorem from_struct_eq (s : StructSchema)
    (hascii : s.displayName.data.all isAscii = true) :
    TypeIdent.from_struct s =
      Except.ok (TypeIdent.struct (camelIdent s.displayName)) := by
  simp [TypeIdent.from_struct, capnp_display_name_to_ident, hascii,
    ok_bind, camelIdent]

/-- The variant interface identifier: the struct's identifier with the
variant field name, first character uppercased, appended. -/
def variantIdent (s : StructSchema) (f : Field) : TypeIdent :=
  match f.name.data with
  | [] => TypeIdent.struct (camelIdent s.displayName)
  | c :: rest =>
      TypeIdent.struct
        (camelIdent s.displayName ++ String.mk (c.toUpper :: rest))

theorem from_union_variant_eq (s : StructSchema) (f : Field)
    (hascii : s.displayName.data.all isAscii = true)
    (hname : f.name.data ≠ []) :
    TypeIdent.from_union_variant s f = Except.ok (variantIdent s f) := by
  unfold TypeIdent.from_union_variant
  simp only [capnp_display_name_to_ident, hascii, Bool.not_true,
    Bool.false_eq_true, if_false, ok_bind]
  cases hd : f.name.data with
  | nil => exact absurd hd hname
  | cons c rest => simp [hd, variantIdent, camelIdent]

/-- The JSON key of a union variant: the value-name override from the
discriminator options, else the variant field's resolved name. -/
def vName (opts : DiscriminatorOptions) (f : Field) : String :=
  opts.value_name.getD (resolvedFieldName f)

theorem visit_variants_simple (s : StructSchema)
    (opts : DiscriminatorOptions) (nonUnion : List (String × TypeIdent))
    (hascii : s.displayName.data.all isAscii = true) :
    ∀ (fields : List Field) (ctx : Context),
      (∀ f ∈ fields, f.ty.isSimple = true ∧
        (f.ty.simpleIdent).isSome = true ∧ f.name.data ≠ []) →
      visit_variants ctx s fields opts nonUnion = Except.ok
        ({ ctx with items := ctx.items ++ fields.map (fun f =>
            Item.interface (variantIdent s f)
              (nonUnion ++ [(vName opts f,
                (f.ty.simpleIdent).getD TypeIdent.null)])) },
          fields.map (variantIdent s)) := by
  intro fields
  induction fields with
  | nil =>
      intro ctx _
      rw [visit_variants]
      simp
  | cons f rest ih =>
      intro ctx h
      obtain ⟨hsimp, hsome, hname⟩ := h f (List.mem_cons_self _ _)
      have hrest := fun g hg => h g (List.mem_cons_of_mem _ hg)
      rw [visit_variants]
      simp only [read_annots, ok_bind]
      rw [visit_type_simple ctx f.ty _ hsimp]
      simp only [ok_bind]
      obtain ⟨t, ht⟩ := Option.isSome_iff_exists.mp hsome
      rw [ht]
      simp only [from_union_variant_eq s f hascii hname, ok_bind]
      cases hv : opts.value_name with
      | some v =>
          simp only [hv, pure_eq_ok, ok_bind]
          rw [ih _ hrest]
          simp only [ok_bind, Except.ok.injEq, Prod.mk.injEq]
          constructor
          · simp [List.append_assoc, vName, hv, ht]
          · rfl
      | none =>
          simp only [hv, field_name_eq, ok_bind]
          rw [ih _ hrest]
          simp only [ok_bind, Except.ok.injEq, Prod.mk.injEq]
          constructor
          · simp [List.append_assoc, vName, hv, ht, resolvedFieldName]
          · rfl

/-- C5: visiting a fresh struct with a union of N representable scalar
variants emits exactly one interface per variant, carrying the variant's
identifier, plus exactly one alias naming the union of those N variant
identifiers, and nothing else. -/
theorem visit_struct_union_emits_variants_and_alias
    (ctx : Context) (s : StructSchema)
    (hu : s.unionFields ≠ [])
    (hascii : s.displayName.data.all isAscii = true)
    (hnus : ∀ f ∈ s.nonUnionFields, f.ty.isSimple = true)
    (hus : ∀ f ∈ s.unionFields, f.ty.isSimple = true ∧
      (f.ty.simpleIdent).isSome = true ∧ f.name.data ≠ [])
    (hfresh : TypeIdent.struct (camelIdent s.displayName) ∉ ctx.visited) :
    ∃ entries : Field → List (String × TypeIdent),
      visit_struct ctx s = Except.ok
        ({ ctx with
            visited := TypeIdent.struct (camelIdent s.displayName) ::
              ctx.visited,
            items := (ctx.items ++
              s.unionFields.map (fun f =>
                Item.interface (variantIdent s f) (entries f))) ++
              [Item.alias (TypeIdent.struct (camelIdent s.displayName))
                (TypeIdent.union (s.unionFields.map (variantIdent s)))] },
          TypeIdent.struct (camelIdent s.displayName)) := by
  obtain ⟨o, ho⟩ := read_discriminator_isOk s
  refine ⟨fun f => ((s.nonUnionFields.foldl (fun a g =>
      match g.ty.simpleIdent with
      | some t => btreeInsert g.codeOrder (resolvedFieldName g, t) a
      | none => a) []).map Prod.snd) ++
    [(vName o f, (f.ty.simpleIdent).getD TypeIdent.null)], ?_⟩
  rw [visit_struct, from_struct_eq s hascii]
  simp only [ok_bind]
  rw [if_neg hfresh]
  rw [visit_nonunion_simple s.nonUnionFields _ [] hnus]
  simp only [ok_bind]
  have htrue : s.has_union_fields = true := by
    cases hl : s.unionFields with
    | nil => exact absurd hl hu
    | cons a as => simp [StructSchema.has_union_fields, hl]
  rw [if_pos htrue, ho]
  simp only [ok_bind]
  rw [visit_variants_simple s o _ hascii s.unionFields _ hus]
  simp only [ok_bind]
  rfl

/-- A struct with a common text field and an unnamed two-variant union,
mirroring the simple_unnamed_union test schema. -/
def unionStruct : StructSchema :=
  StructSchema.mk "test.capnp:U" "U" []
    [Field.mk "common" 0 [] Ty.text]
    [Field.mk "unset" 1 [] Ty.void, Field.mk "variant" 2 [] Ty.uint16]

/-- A fresh generation session. -/
def freshCtx : Context := Context.new {}

theorem visit_struct_union_emits_variants_and_alias_witness :
    unionStruct.unionFields ≠ [] ∧
    unionStruct.displayName.data.all isAscii = true ∧
    (∀ f ∈ unionStruct.nonUnionFields, f.ty.isSimple = true) ∧
    (∀ f ∈ unionStruct.unionFields, f.ty.isSimple = true ∧
      (f.ty.simpleIdent).isSome = true ∧ f.name.data ≠ []) ∧
    TypeIdent.struct (camelIdent unionStruct.displayName) ∉
      freshCtx.visited ∧
    ∃ entries : Field → List (String × TypeIdent),
      visit_struct freshCtx unionStruct = Except.ok
        ({ freshCtx with
            visited := TypeIdent.struct (camelIdent unionStruct.displayName) ::
              freshCtx.visited,
            items := (freshCtx.items ++
              unionStruct.unionFields.map (fun f =>
                Item.interface (variantIdent unionStruct f) (entries f))) ++
              [Item.alias
                (TypeIdent.struct (camelIdent unionStruct.displayName))
                (TypeIdent.union (unionStruct.unionFields.map
                  (variantIdent unionStruct)))] },
          TypeIdent.struct (camelIdent unionStruct.displayName)) := by
  refine ⟨by simp [unionStruct, StructSchema.unionFields], by decide,
    by decide, by decide, by simp [freshCtx, Context.new], ?_⟩
  exact visit_struct_union_emits_variants_and_alias freshCtx unionStruct
    (by simp [unionStruct, StructSchema.unionFields]) (by decide)
    (by decide) (by decide) (by simp [freshCtx, Context.new])


end CapnpJson
